import Mathlib

/-!
Verification of the ai-linter cross-file reference engine.

The development shallowly embeds the validators of the repository:
`UnreferencedFileValidator` (reference extraction, path resolution,
the nested-markdown walk and the resource reconciliation loop),
`ContentLengthValidator.validate_content_length` and
`CodeSnippetValidator.validate_code_snippets`.

Conventions of the embedding:
- an absolute filesystem path is its list of segments below the root
  (pathlib `Path.parts` without the leading anchor); pathlib drops `.` and
  empty segments when it parses a string, and keeps `..`;
- `Path.resolve()` is modelled lexically (no symbolic links): `..` pops the
  previously emitted segment, and is dropped at the root;
- `Path.relative_to` succeeds exactly when the base's segments are a prefix
  of the path's segments, and returns the remaining segments;
- a finding is one `logRule` call of the source; the logger's level
  threshold and rendering are presentation concerns outside the model.
-/

set_option maxRecDepth 10000

namespace AiLinter

/-! ### String and character constants of the source -/

def slashChar : Char := '/'
def dotStr : String := "."
def dotdotStr : String := ".."
def emptyStr : String := ""
def mdExt : String := ".md"
def httpPre : String := "http://"
def httpsPre : String := "https://"
def mailtoPre : String := "mailto:"
def hashPre : String := "#"
def dataPre : String := "data:"
def ruleUnreferenced : String := "unreferenced-resource-file"
def ruleFileReadError : String := "file-read-error"
def ruleTooManyLines : String := "too-many-lines"
def ruleTooComplex : String := "too-complex-content"
def ruleComplexity : String := "content-complexity"
def ruleSnippet : String := "code-snippet-too-large"

/-- Python `s.startswith(pre)`. -/
def pyStartsWith (s pre : String) : Bool := pre.data.isPrefixOf s.data

/-- Python `s.endswith(suf)`. -/
def pyEndsWith (s suf : String) : Bool := suf.data.isSuffixOf s.data

/-! ### Path parsing and joining (pathlib) -/

/-- Split a character list on a separator, keeping empty pieces
(the semantics of splitting a string on one character). -/
def splitOnChar (sep : Char) : List Char → List (List Char)
  | [] => [[]]
  | c :: t =>
    if c == sep then [] :: splitOnChar sep t
    else
      match splitOnChar sep t with
      | h :: r => (c :: h) :: r
      | [] => [[c]]

/-- Parse a path string into pathlib parts: split on `/`, drop empty
segments and `.` segments, keep `..` (what `PurePosixPath` does). -/
def parseRel (s : String) : List String :=
  ((splitOnChar slashChar s.data).map String.mk).filter
    (fun t => !(t == emptyStr) && !(t == dotStr))

/-- Join relative-path segments with `/` at the character level. -/
def joinSegsChars : List String → List Char
  | [] => []
  | [s] => s.data
  | s :: rest => s.data ++ slashChar :: joinSegsChars rest

/-- Render relative segments the way `str(Path(...))` does: the empty
path renders as `.`. -/
def canonStr (segs : List String) : String :=
  if segs.isEmpty then dotStr else String.mk (joinSegsChars segs)

/-- Lexical `Path.resolve()` on absolute segments (no symbolic links):
`..` pops the last emitted segment when there is one and is dropped at the
root; `.` segments were already removed by parsing. -/
def resolveSegs (segs : List String) : List String :=
  segs.foldl (fun acc seg => if seg == dotdotStr then acc.dropLast else acc ++ [seg]) []

/-- Python `Path.relative_to`: succeeds iff `base`'s parts are a prefix of
`p`'s parts, returning the remaining parts; otherwise `ValueError`. -/
def relativeTo? (p base : List String) : Option (List String) :=
  if base.isPrefixOf p then some (p.drop base.length) else none

/-- Python `ref.lstrip("/")`. -/
def pyLstripSlash (s : String) : String := String.mk (s.data.dropWhile (· == slashChar))

/-- Python `ref.startswith("/")`. -/
def startsSlash (s : String) : Bool :=
  match s.data with
  | [] => false
  | c :: _ => c == slashChar

/-! ### The path resolver (`UnreferencedFileValidator._add_resolved_reference`) -/

/-- The absolute path a raw reference resolves to (source lines 268-274):
a `/`-prefixed reference is joined onto the project root with no
normalization; any other reference is joined onto the directory of the
markdown file and passed through `Path.resolve()`. -/
def resolveAbs (ref : String) (mdDir projDir : List String) : List String :=
  if startsSlash ref then projDir ++ parseRel (pyLstripSlash ref)
  else resolveSegs (mdDir ++ parseRel ref)

/-- `_add_resolved_reference` as a partial function to the canonical
project-relative string it would add: `relative_to(project_dir)` failing
(`ValueError`) discards the reference. -/
def resolveReference (ref : String) (mdDir projDir : List String) : Option String :=
  match relativeTo? (resolveAbs ref mdDir projDir) projDir with
  | some rel => some (canonStr rel)
  | none => none

/-- Insert into a deduplicated reference list (Python `set.add`; order is
first appearance, membership is what matters). -/
def insertRef (l : List String) (r : String) : List String :=
  if r ∈ l then l else l ++ [r]

/-- One `_add_resolved_reference` call updating the reference set. -/
def addResolvedReference (ref : String) (mdDir projDir : List String)
    (set : List String) : List String :=
  match resolveReference ref mdDir projDir with
  | some c => insertRef set c
  | none => set

/-! ### The reference extractor (`UnreferencedFileValidator.extract_file_references`)

Each regular expression of the source is embedded as a matcher that, at the
head of a character list, either fails or returns the captured group
together with the total number of characters the match consumes.
`re.finditer` is the fuelled scan `scanAux`: try the matcher at every
position from the left, and resume after the end of each match
(non-overlapping matches). Every matcher consumes at least one character
when it succeeds, so fuel equal to the length of the text is enough. -/

/-- Python `ref.split("#")[0].split("?")[0]`. -/
def stripFragQuery (s : String) : String :=
  String.mk ((s.data.takeWhile (fun c => c != '#')).takeWhile (fun c => c != '?'))

/-- Generic fuelled `re.finditer` scan for a head matcher returning
(captured group, consumed length). -/
def scanAux (tryM : List Char → Option (String × Nat)) : Nat → List Char → List String
  | 0, _ => []
  | _ + 1, [] => []
  | fuel + 1, c :: t =>
    match tryM (c :: t) with
    | some (g, n) => g :: scanAux tryM fuel ((c :: t).drop n)
    | none => scanAux tryM fuel t

/-- Matcher core for the link pattern after the opening bracket:
group 1 is `[^\]]*`, then a literal `](`, then group 2 is `([^)]+)`,
then a literal `)`. -/
def tryLinkCore (t : List Char) : Option (String × Nat) :=
  let g1 := t.takeWhile (fun c => c != ']')
  match t.drop g1.length with
  | c1 :: c2 :: t2 =>
    if c1 == ']' && c2 == '(' then
      let g2 := t2.takeWhile (fun c => c != ')')
      if g2.isEmpty then none
      else
        match t2.drop g2.length with
        | c3 :: _ =>
          if c3 == ')' then some (String.mk g2, g1.length + 2 + g2.length + 1) else none
        | [] => none
    else none
  | _ => none

/-- The markdown link pattern of source line 43, at the head of the text:
an optional `!`, then the core pattern. -/
def tryLink : List Char → Option (String × Nat)
  | [] => none
  | c :: t =>
    if c == '!' then
      match t with
      | c2 :: t2 =>
        if c2 == '[' then (tryLinkCore t2).map (fun p => (p.1, p.2 + 2)) else none
      | [] => none
    else if c == '[' then (tryLinkCore t).map (fun p => (p.1, p.2 + 1)) else none

def isQuote (c : Char) : Bool := c == Char.ofNat 34 || c == Char.ofNat 39

/-- Tail of the `img`/`attachment` patterns: the literal attribute key,
a quote, the non-empty quoted group `([^"\']+)`, and a closing quote
(either kind, as in the character class of the source). -/
def tryTailQuoted (key : List Char) (s : List Char) : Option (String × Nat) :=
  if key.isPrefixOf s then
    match s.drop key.length with
    | q :: t =>
      if isQuote q then
        let g := t.takeWhile (fun c => !(isQuote c))
        if g.isEmpty then none
        else
          match t.drop g.length with
          | q2 :: _ =>
            if isQuote q2 then some (String.mk g, key.length + 1 + g.length + 1) else none
          | [] => none
      else none
    | [] => none
  else none

/-- Greedy `[^>]+` backtracking: try the longest run first, then shorter
runs, looking for the attribute tail right after the consumed run. -/
def tryAttrMatch (key : List Char) (t : List Char) : Nat → Option (String × Nat)
  | 0 => none
  | k + 1 =>
    match tryTailQuoted key (t.drop (k + 1)) with
    | some (g, n) => some (g, (k + 1) + n)
    | none => tryAttrMatch key t k

/-- A tag pattern `<head[^>]+key["\']([^"\']+)["\']` at the head of the
text (the `img` pattern of source line 52 and the `attachment` pattern of
source line 59). -/
def tryTag (head key : List Char) (s : List Char) : Option (String × Nat) :=
  if head.isPrefixOf s then
    let t := s.drop head.length
    let run := t.takeWhile (fun c => c != '>')
    match tryAttrMatch key t run.length with
    | some (g, n) => some (g, head.length + n)
    | none => none
  else none

def imgHead : List Char := "<img".data
def srcKey : List Char := "src=".data
def attachHead : List Char := "<attachment".data
def filePathKey : List Char := "filePath=".data

/-- The code-reference pattern of source line 64,
`(?:source|file|path):\s*([^\s\n]+)` with `re.IGNORECASE`: keywords tried
in the order of the alternation, then greedy whitespace, then a non-empty
run of non-whitespace characters. -/
def tryKeyword (kw : List Char) (s : List Char) : Option (String × Nat) :=
  if (s.take kw.length).map Char.toLower == kw then
    let t := s.drop kw.length
    let ws := t.takeWhile Char.isWhitespace
    let t2 := t.drop ws.length
    let g := t2.takeWhile (fun c => !c.isWhitespace)
    if g.isEmpty then none else some (String.mk g, kw.length + ws.length + g.length)
  else none

def sourceKw : List Char := "source:".data
def fileKw : List Char := "file:".data
def pathKw : List Char := "path:".data

def tryCodeRef (s : List Char) : Option (String × Nat) :=
  match tryKeyword sourceKw s with
  | some r => some r
  | none =>
    match tryKeyword fileKw s with
    | some r => some r
    | none => tryKeyword pathKw s

/-- Raw targets of the markdown link pattern, in match order. -/
def linkTargets (content : String) : List String :=
  scanAux tryLink content.data.length content.data

/-- Source lines 44-49: strip fragment and query, keep non-empty targets
that do not start with `http://`, `https://`, `mailto:` or `#`. -/
def processLinkTarget (raw : String) : Option String :=
  let ref := stripFragQuery raw
  if ref == emptyStr then none
  else if pyStartsWith ref httpPre || pyStartsWith ref httpsPre ||
      pyStartsWith ref mailtoPre || pyStartsWith ref hashPre then none
  else some ref

def linkRefs (content : String) : List String :=
  (linkTargets content).filterMap processLinkTarget

/-- Source lines 52-56: `img` targets kept unless they start with
`http://`, `https://` or `data:`. -/
def imgRefs (content : String) : List String :=
  (scanAux (tryTag imgHead srcKey) content.data.length content.data).filter
    (fun ref => !(ref == emptyStr) && !(pyStartsWith ref httpPre) &&
      !(pyStartsWith ref httpsPre) && !(pyStartsWith ref dataPre))

/-- Source lines 59-61: attachment `filePath` targets, kept unfiltered. -/
def attachRefs (content : String) : List String :=
  scanAux (tryTag attachHead filePathKey) content.data.length content.data

/-- Source lines 64-68: code-reference targets kept unless they start with
`http://` or `https://`. -/
def codeRefs (content : String) : List String :=
  (scanAux tryCodeRef content.data.length content.data).filter
    (fun ref => !(ref == emptyStr) && !(pyStartsWith ref httpPre) &&
      !(pyStartsWith ref httpsPre))

/-- `extract_file_references`: the deduplicated union of the four
pattern scans (a Python `set`; modelled as a list without duplicates,
membership is what matters). -/
def extract_file_references (content : String) : List String :=
  (linkRefs content ++ imgRefs content ++ attachRefs content ++ codeRefs content).foldl
    insertRef []

/-! ### Findings and the filesystem model -/

/-- `LogLevel` of `lib/log/log_level.py`. -/
inductive LogLevel where
  | error
  | warning
  | info
  | debug
deriving DecidableEq, BEq, Repr

/-- One `logRule` call of the source: severity, rule code, the path passed
as `file` (as segments), and the optional line number. -/
structure Finding where
  level : LogLevel
  rule : String
  file : List String
  line : Option Nat
deriving DecidableEq, BEq, Repr

/-- Number of findings carrying a given rule code. -/
def countRule (r : String) (l : List Finding) : Nat :=
  l.countP (fun f => f.rule == r)

/-- One file of the modelled filesystem: its absolute path (segments), a
readability flag (`read_text` raises when it is false) and its content. -/
structure FSFile where
  path : List String
  readable : Bool
  content : String
deriving DecidableEq, Repr

/-- The filesystem is a finite list of files. -/
abbrev FS := List FSFile

/-- `exists() and is_file()` plus the read attempt: the operating system
resolves `..` segments of the looked-up path (no symbolic links). -/
def fsLookup (fs : FS) (p : List String) : Option FSFile :=
  fs.find? (fun f => f.path == resolveSegs p)

/-! ### The reference graph walker
(`UnreferencedFileValidator.validate_unreferenced_files`, lines 136-187) -/

/-- The nested hop for one reference (source lines 146-182): only `.md`
references are followed; the file is resolved with the same two branches
as the resolver; a missing file is skipped with no finding; an existing
file whose read fails yields a WARNING `file-read-error` finding (with no
line number); a readable file contributes the resolutions of its own
extracted references, using the nested file's directory as base.
`Path.resolve()` never raises in the lexical model, so the
`reference-resolution-failed` branch of line 175 is unreachable here. -/
def nestedRefContribution (fs : FS) (ref : String) (mdDir projDir : List String) :
    List String × List Finding :=
  if pyEndsWith ref mdExt then
    let p := resolveAbs ref mdDir projDir
    match fsLookup fs p with
    | some f =>
      if f.readable then
        ((extract_file_references f.content).foldl
          (fun s r => addResolvedReference r p.dropLast projDir s) [], [])
      else ([], [⟨LogLevel.warning, ruleFileReadError, p, none⟩])
    | none => ([], [])
  else ([], [])

/-- The walk of one entry document: resolve every extracted reference of
the content, then follow one hop into every referenced markdown file.
Loop iterations only append findings and only insert into the set, so the
walk is the fold of the per-reference contributions. -/
def walkReferences (fs : FS) (content : String) (mdFile projDir : List String) :
    List String × List Finding :=
  let refs := extract_file_references content
  let set1 := refs.foldl (fun s r => addResolvedReference r mdFile.dropLast projDir s) []
  let set2 := refs.foldl
    (fun s r => ((nestedRefContribution fs r mdFile.dropLast projDir).1).foldl insertRef s)
    set1
  (set2, refs.flatMap (fun r => (nestedRefContribution fs r mdFile.dropLast projDir).2))

/-! ### The consistency checker (source lines 199-246) -/

/-- Line 225: a project-relative path string is referenced when some
reference equals it or ends with it. -/
def refMatches (refs : List String) (s : String) : Bool :=
  refs.any (fun r => r == s || pyEndsWith r s)

/-- Line 207: a scanned path is skipped when any of its segments equals
the name (final segment) of an ignored directory. -/
def isIgnoredPath (ignoreNames : List String) (p : List String) : Bool :=
  p.any (fun part => ignoreNames.any (fun n => part == n))

/-- The body of the scan loop for one file (lines 205-246): compute the
two relative paths (a `ValueError` skips the file), test the reference
set, and emit one `unreferenced-resource-file` finding for an unmatched
file — unless `project_dir.relative_to(relative_to)` of line 230 raises,
which also silently skips. -/
def checkFile (projDir relTo : List String) (ignoreNames : List String)
    (refs : List String) (level : LogLevel) (startLine : Nat)
    (filePath : List String) : List Finding :=
  if isIgnoredPath ignoreNames filePath then []
  else
    match relativeTo? filePath relTo, relativeTo? filePath projDir with
    | some relRel, some projRel =>
      if refMatches refs (canonStr projRel) then []
      else
        match relativeTo? projDir relTo with
        | some _ => [⟨level, ruleUnreferenced, relRel, some startLine⟩]
        | none => []
    | _, _ => []

/-- The findings of the resource reconciliation over a list of scanned
files (the `rglob` output restricted to plain files, in scan order). -/
def validateScanned (projDir relTo : List String) (ignoreNames : List String)
    (refs : List String) (level : LogLevel) (startLine : Nat)
    (scanned : List (List String)) : List Finding :=
  scanned.flatMap (checkFile projDir relTo ignoreNames refs level startLine)

/-! ### The content budget checker
(`ContentLengthValidator.validate_content_length`; the identical copy in
`FileReferenceValidator.validate_content_length`) -/

/-- Python `content.count("\n")`. -/
def countNewlines (s : String) : Nat := s.data.countP (fun c => c == '\n')

/-- `validate_content_length`: the token check (WARNING
`too-complex-content` above the ceiling, INFO `content-complexity`
otherwise) and the independent line check (ERROR `too-many-lines` when
`newline count + 1` exceeds the ceiling). The token counter is the
injected external capability. `file.relative_to(project_dir)` raising
(file outside the project) propagates, modelled as `none`. Returns the
findings with the warning and error counts. -/
def validate_content_length (tokenCount : String → Nat) (content : String)
    (file : List String) (lineNumber : Nat) (maxTokens maxLines : Nat)
    (projDir : List String) : Option (List Finding × Nat × Nat) :=
  match relativeTo? file projDir with
  | none => none
  | some fileRel =>
    let tc := tokenCount content
    let tokenPart : List Finding × Nat :=
      if tc > maxTokens then ([⟨LogLevel.warning, ruleTooComplex, fileRel, some lineNumber⟩], 1)
      else ([⟨LogLevel.info, ruleComplexity, fileRel, some lineNumber⟩], 0)
    let lineCount := countNewlines content + 1
    let linePart : List Finding × Nat :=
      if lineCount > maxLines then ([⟨LogLevel.error, ruleTooManyLines, fileRel, some lineNumber⟩], 1)
      else ([], 0)
    some (tokenPart.1 ++ linePart.1, tokenPart.2, linePart.2)

/-! ### The code snippet validator
(`CodeSnippetValidator.validate_code_snippets`, lines 43-74) -/

def btChar : Char := Char.ofNat 96

def isWordChar (c : Char) : Bool := c.isAlphanum || c == '_'

def startsTicks : List Char → Bool
  | a :: b :: c :: _ => a == btChar && b == btChar && c == btChar
  | _ => false

/-- The lazy group `(.*?)` with `re.DOTALL` followed by the literal
closing fence: the shortest run of characters up to the first occurrence
of three backticks; returns the group and the consumed length including
the closing fence. -/
def lazyClose : List Char → Option (List Char × Nat)
  | [] => none
  | c :: t =>
    if startsTicks (c :: t) then some ([], 3)
    else
      match lazyClose t with
      | some (g, n) => some (c :: g, n + 1)
      | none => none

/-- The fenced-block pattern of source line 45 at the head of the text:
three backticks, an optional run of word characters (greedy, so the run
must be maximal and immediately followed by a newline), a newline, the
lazy body, and the closing fence. Returns the body and the total match
length. -/
def tryCodeBlock (s : List Char) : Option (List Char × Nat) :=
  if startsTicks s then
    let t := s.drop 3
    let w := t.takeWhile isWordChar
    match t.drop w.length with
    | c :: t2 =>
      if c == '\n' then
        match lazyClose t2 with
        | some (g, n) => some (g, 3 + w.length + 1 + n)
        | none => none
      else none
    | [] => none
  else none

/-- The `finditer` scan for fenced blocks, also recording the character
offset at which each match starts. -/
def scanBlocksF : Nat → Nat → List Char → List (Nat × List Char)
  | 0, _, _ => []
  | _ + 1, _, [] => []
  | fuel + 1, i, c :: t =>
    match tryCodeBlock (c :: t) with
    | some (g, n) => (i, g) :: scanBlocksF fuel (i + n) ((c :: t).drop n)
    | none => scanBlocksF fuel (i + 1) t

def scanBlocks (s : List Char) : List (Nat × List Char) :=
  scanBlocksF s.length 0 s

/-- Python `code_content.split("\n")` at the character level (keeps empty
pieces). -/
def splitOnNl (g : List Char) : List (List Char) := splitOnChar '\n' g

/-- Python `line.strip()` truthiness: the line has a non-whitespace
character. -/
def strippedNonEmpty (line : List Char) : Bool := line.any (fun c => !c.isWhitespace)

/-- `validate_code_snippets` on already-read content: for every fenced
block whose count of non-empty lines exceeds the ceiling, one WARNING
`code-snippet-too-large` finding whose line number is the count of
newlines before the match start plus one. -/
def validate_code_snippets (filePath : List String) (content : String)
    (maxLines : Nat) : List Finding :=
  (scanBlocks content.data).filterMap (fun m =>
    let lineCount := (splitOnNl m.2).countP strippedNonEmpty
    if lineCount > maxLines then
      some ⟨LogLevel.warning, ruleSnippet, filePath,
        some ((content.data.take m.1).countP (fun c => c == '\n') + 1)⟩
    else none)

/-! ## Claim theorems -/

/-- C3 counterexample: the `/`-prefixed branch of the resolver performs no
`..` normalization, so the reference `/../x` (which escapes the project
root `/r`) is not discarded: it is added with canonical path `../x`, a
canonical string whose first segment is `..`. -/
theorem slash_dotdot_reference_added_unnormalized :
    resolveReference (String.mk ['/', '.', '.', '/', 'x']) ["r"] ["r"] =
        some (String.mk ['.', '.', '/', 'x']) ∧
    pyStartsWith (String.mk ['.', '.', '/', 'x']) dotdotStr = true ∧
    relativeTo? (resolveSegs (["r"] ++ parseRel (pyLstripSlash
        (String.mk ['/', '.', '.', '/', 'x'])))) ["r"] = none := by
  refine ⟨by decide, by decide, by decide⟩

/-- C4: a reference `../../assets/file.txt` inside `docs/sub/guide.md`
with the project root two levels above `docs/sub` resolves to the
canonical path `assets/file.txt`; and `./assets/x`, `assets/x` and
`dir/../assets/x` written in the same file all resolve to the same
canonical path. -/
theorem path_algebra_examples :
    resolveReference "../../assets/file.txt" ["r", "docs", "sub"] ["r"] =
        some "assets/file.txt" ∧
    resolveReference "./assets/x" ["r", "docs", "sub"] ["r"] = some "docs/sub/assets/x" ∧
    resolveReference "assets/x" ["r", "docs", "sub"] ["r"] = some "docs/sub/assets/x" ∧
    resolveReference "dir/../assets/x" ["r", "docs", "sub"] ["r"] =
        some "docs/sub/assets/x" := by
  refine ⟨by decide, by decide, by decide, by decide⟩

/-- C5 counterexample: resolution is not idempotent as claimed. For the
source file `r/docs/g.md` with project root `r`, the reference `a.txt`
resolves inside the project root to canonical `docs/a.txt`; feeding that
canonical output back through the same resolver (same source file, same
root) yields `docs/docs/a.txt`, a different canonical path, because the
resolver interprets it relative to the source file's directory again. -/
theorem resolver_not_idempotent_in_subdirectory :
    resolveReference "a.txt" ["r", "docs"] ["r"] = some "docs/a.txt" ∧
    resolveReference "docs/a.txt" ["r", "docs"] ["r"] = some "docs/docs/a.txt" ∧
    ("docs/docs/a.txt" : String) ≠ "docs/a.txt" := by
  refine ⟨by decide, by decide, by decide⟩

/-- C6 counterexample: an HTML `img` tag whose `src` starts with
`mailto:` is not discarded by the extractor — the `img` pattern only
excludes `http://`, `https://` and `data:` — contradicting the claim that
the markdown-link URL-scheme exclusions (which include `mailto:`) apply
to `img` targets. -/
theorem img_mailto_target_not_discarded :
    extract_file_references "<img src='mailto:a@b'>" = ["mailto:a@b"] ∧
    pyStartsWith "mailto:a@b" mailtoPre = true := by
  refine ⟨by decide, by decide⟩

/-- C7: exclusion of a scanned path by the ignore list is full
path-segment equality — the path is excluded iff some segment is exactly
an ignored name; in particular a directory literally named `scripts-git`
is not excluded by the ignore entry `git` (though a real `git` segment
is). -/
theorem ignore_matching_segment_equality :
    (∀ (ignoreNames p : List String),
        isIgnoredPath ignoreNames p = true ↔ ∃ part ∈ p, part ∈ ignoreNames) ∧
    isIgnoredPath ["git"] ["r", "scripts-git", "x.sh"] = false ∧
    isIgnoredPath ["git"] ["r", "git", "x.sh"] = true := by
  refine ⟨?_, by decide, by decide⟩
  intro ignoreNames p
  simp [isIgnoredPath, List.any_eq_true]

/-! ### Lemmas for the reference graph walker -/

theorem mem_insertRef_self (l : List String) (r : String) : r ∈ insertRef l r := by
  unfold insertRef
  split
  · assumption
  · simp

theorem mem_insertRef_mono {l : List String} {a : String} (h : a ∈ l) (r : String) :
    a ∈ insertRef l r := by
  unfold insertRef
  split
  · exact h
  · simp [h]

theorem mem_foldl_insertRef_mono {a : String} (l : List String) {s : List String}
    (h : a ∈ s) : a ∈ l.foldl insertRef s := by
  induction l generalizing s with
  | nil => exact h
  | cons x t ih => exact ih (mem_insertRef_mono h x)

theorem mem_addResolved_mono {a : String} {s : List String} (h : a ∈ s) (r : String)
    (mdDir projDir : List String) : a ∈ addResolvedReference r mdDir projDir s := by
  unfold addResolvedReference
  split
  · exact mem_insertRef_mono h _
  · exact h

theorem mem_addResolved_self {r c : String} {mdDir projDir s : List String}
    (h : resolveReference r mdDir projDir = some c) :
    c ∈ addResolvedReference r mdDir projDir s := by
  unfold addResolvedReference
  rw [h]
  exact mem_insertRef_self s c

theorem mem_foldl_addResolved_mono {a : String} (l : List String)
    (mdDir projDir : List String) {s : List String} (h : a ∈ s) :
    a ∈ l.foldl (fun acc x => addResolvedReference x mdDir projDir acc) s := by
  induction l generalizing s with
  | nil => exact h
  | cons x t ih => exact ih (mem_addResolved_mono h x mdDir projDir)

theorem resolved_mem_foldl {refs : List String} {r c : String} {mdDir projDir : List String}
    (hr : r ∈ refs) (hc : resolveReference r mdDir projDir = some c) (s : List String) :
    c ∈ refs.foldl (fun acc x => addResolvedReference x mdDir projDir acc) s := by
  induction refs generalizing s with
  | nil => cases hr
  | cons x t ih =>
    rcases List.mem_cons.mp hr with rfl | h'
    · exact mem_foldl_addResolved_mono t mdDir projDir (mem_addResolved_self hc)
    · exact ih h' _

theorem mem_foldl_insert_fold_mono {a : String} (l : List String)
    (g : String → List String) {s : List String} (h : a ∈ s) :
    a ∈ l.foldl (fun acc r => (g r).foldl insertRef acc) s := by
  induction l generalizing s with
  | nil => exact h
  | cons x t ih => exact ih (mem_foldl_insertRef_mono (g x) h)

/-- Every reference of the entry document that resolves inside the
project root appears in the walk's reference set, whatever the
filesystem does on the nested hop. -/
theorem mem_walk_set_of_resolved {fs : FS} {content : String}
    {mdFile projDir : List String} {r c : String}
    (hr : r ∈ extract_file_references content)
    (hc : resolveReference r mdFile.dropLast projDir = some c) :
    c ∈ (walkReferences fs content mdFile projDir).1 := by
  unfold walkReferences
  exact mem_foldl_insert_fold_mono (extract_file_references content)
    (fun x => (nestedRefContribution fs x mdFile.dropLast projDir).1)
    (resolved_mem_foldl hr hc [])

/-- C2 counterexample: a document referencing a missing nested markdown
file produces no finding at all — the walker's exception branch never
fires for a merely nonexistent file, which is silently skipped (the
repository's own test asserts this). The claimed WARNING is not emitted. -/
theorem missing_nested_md_emits_no_warning :
    (walkReferences [] "[a](missing.md)\n[b](assets/f.txt)" ["r", "README.md"] ["r"]).2 = [] ∧
    "missing.md" ∈ extract_file_references "[a](missing.md)\n[b](assets/f.txt)" ∧
    pyEndsWith "missing.md" mdExt = true ∧
    fsLookup [] (resolveAbs "missing.md" ["r"] ["r"]) = none := by
  refine ⟨by decide, by decide, by decide, by decide⟩

/-- C2 amended: a nested markdown reference whose target is missing is
silently skipped (no finding); one whose target exists but cannot be read
produces exactly one WARNING (`file-read-error`) finding; in both cases
the walk continues and every resolvable reference of the entry document
is still added to the reference set. -/
theorem nested_md_failure_handling :
    ∀ (fs : FS) (content : String) (mdFile projDir : List String) (ref : String),
      ref ∈ extract_file_references content →
      pyEndsWith ref mdExt = true →
      (fsLookup fs (resolveAbs ref mdFile.dropLast projDir) = none →
        (nestedRefContribution fs ref mdFile.dropLast projDir).2 = []) ∧
      (∀ f, fsLookup fs (resolveAbs ref mdFile.dropLast projDir) = some f →
        f.readable = false →
        (nestedRefContribution fs ref mdFile.dropLast projDir).2 =
          [⟨LogLevel.warning, ruleFileReadError, resolveAbs ref mdFile.dropLast projDir,
            none⟩]) ∧
      (∀ r c, r ∈ extract_file_references content →
        resolveReference r mdFile.dropLast projDir = some c →
        c ∈ (walkReferences fs content mdFile projDir).1) := by
  intro fs content mdFile projDir ref _ hmd
  refine ⟨?_, ?_, ?_⟩
  · intro hnone
    simp [nestedRefContribution, hmd, hnone]
  · intro f hsome hread
    simp [nestedRefContribution, hmd, hsome, hread]
  · intro r c hr hc
    exact mem_walk_set_of_resolved hr hc

/-- Witness for C2 (amended): an existing but unreadable `nested.md`
yields the `file-read-error` WARNING, and the sibling reference
`assets/f.txt` is still in the walk's reference set. -/
theorem nested_md_failure_handling_witness :
    (nestedRefContribution [⟨["r", "nested.md"], false, ""⟩] "nested.md"
        ((["r", "README.md"] : List String).dropLast) ["r"]).2 =
      [⟨LogLevel.warning, ruleFileReadError, ["r", "nested.md"], none⟩] ∧
    "assets/f.txt" ∈ (walkReferences [⟨["r", "nested.md"], false, ""⟩]
      "[a](nested.md)\n[b](assets/f.txt)" ["r", "README.md"] ["r"]).1 := by
  have h := nested_md_failure_handling [⟨["r", "nested.md"], false, ""⟩]
    "[a](nested.md)\n[b](assets/f.txt)" ["r", "README.md"] ["r"] "nested.md"
    (by decide) (by decide)
  refine ⟨?_, h.2.2 "assets/f.txt" "assets/f.txt" (by decide) (by decide)⟩
  have heq : resolveAbs "nested.md" ((["r", "README.md"] : List String).dropLast) ["r"] =
      ["r", "nested.md"] := by decide
  have h2 := h.2.1 ⟨["r", "nested.md"], false, ""⟩ (by decide) rfl
  rw [heq] at h2
  exact h2

/-! ### Lemmas for the path resolver -/

theorem relativeTo?_eq_some_of_leading {base p : List String} (h : base <+: p) :
    relativeTo? p base = some (p.drop base.length) := by
  simp [relativeTo?, List.isPrefixOf_iff_prefix, h]

theorem relativeTo?_some_imp {p base rel : List String}
    (h : relativeTo? p base = some rel) : base <+: p ∧ rel = p.drop base.length := by
  unfold relativeTo? at h
  split at h
  · rename_i hp
    cases h
    exact ⟨List.isPrefixOf_iff_prefix.mp hp, rfl⟩
  · cases h

theorem not_dotdot_mem_foldl_resolve (l : List String) (acc : List String)
    (h : dotdotStr ∉ acc) :
    dotdotStr ∉ l.foldl
      (fun acc seg => if seg == dotdotStr then acc.dropLast else acc ++ [seg]) acc := by
  induction l generalizing acc with
  | nil => exact h
  | cons x t ih =>
    simp only [List.foldl_cons]
    split
    · exact ih _ (fun hm => h (List.dropLast_subset _ hm))
    · rename_i hx
      refine ih _ ?_
      intro hm
      rcases List.mem_append.mp hm with hm | hm
      · exact h hm
      · simp only [List.mem_singleton] at hm
        rw [← hm] at hx
        simp at hx

/-- `Path.resolve()` output never contains a `..` segment: `..` only pops
or is dropped, it is never emitted. -/
theorem not_dotdot_mem_resolveSegs (l : List String) : dotdotStr ∉ resolveSegs l :=
  not_dotdot_mem_foldl_resolve l [] (by simp)

theorem mem_foldl_resolve_subset (l : List String) (acc : List String) :
    ∀ x ∈ l.foldl
      (fun acc seg => if seg == dotdotStr then acc.dropLast else acc ++ [seg]) acc,
      x ∈ acc ∨ x ∈ l := by
  induction l generalizing acc with
  | nil => exact fun x hx => Or.inl hx
  | cons y t ih =>
    intro x hx
    simp only [List.foldl_cons] at hx
    rcases ih _ x hx with hx' | hx'
    · split at hx'
      · exact Or.inl (List.dropLast_subset _ hx')
      · rcases List.mem_append.mp hx' with h | h
        · exact Or.inl h
        · simp only [List.mem_singleton] at h
          exact Or.inr (h ▸ List.mem_cons_self y t)
    · exact Or.inr (List.mem_cons_of_mem y hx')

/-- Every segment of `Path.resolve()` output is a segment of the input. -/
theorem resolveSegs_subset (l : List String) : ∀ x ∈ resolveSegs l, x ∈ l := by
  intro x hx
  rcases mem_foldl_resolve_subset l [] x hx with h | h
  · cases h
  · exact h

/-- C3 amended: for a relative (non-`/`-prefixed) reference, the
resolver's canonical output has no `..` segment (in particular it does
not begin with one), and a resolution that is not below the project root
(which covers every escape above the root) adds nothing — the reference
is discarded without error. The `/`-prefixed branch does not enjoy this:
see the counterexample. -/
theorem relative_reference_canonical_no_dotdot :
    ∀ (ref : String) (mdDir projDir : List String),
      startsSlash ref = false →
      (∀ c, resolveReference ref mdDir projDir = some c →
        ∃ rel, relativeTo? (resolveSegs (mdDir ++ parseRel ref)) projDir = some rel ∧
          c = canonStr rel ∧ dotdotStr ∉ rel) ∧
      (relativeTo? (resolveSegs (mdDir ++ parseRel ref)) projDir = none →
        resolveReference ref mdDir projDir = none) := by
  intro ref mdDir projDir hs
  have habs : resolveAbs ref mdDir projDir = resolveSegs (mdDir ++ parseRel ref) := by
    simp [resolveAbs, hs]
  constructor
  · intro c hc
    unfold resolveReference at hc
    rw [habs] at hc
    rcases hrel : relativeTo? (resolveSegs (mdDir ++ parseRel ref)) projDir with _ | rel
    · rw [hrel] at hc
      cases hc
    · rw [hrel] at hc
      cases hc
      refine ⟨rel, rfl, rfl, ?_⟩
      obtain ⟨_, hdrop⟩ := relativeTo?_some_imp hrel
      intro hmem
      exact not_dotdot_mem_resolveSegs (mdDir ++ parseRel ref)
        (List.drop_subset _ _ (hdrop ▸ hmem))
  · intro hnone
    unfold resolveReference
    rw [habs, hnone]

/-- Witness for C3 (amended), at the relative reference `docs/a.txt`
resolved from the project root itself. -/
theorem relative_reference_canonical_no_dotdot_witness :
    ∃ rel, relativeTo? (resolveSegs (["r"] ++ parseRel "docs/a.txt")) ["r"] = some rel ∧
      ("docs/a.txt" : String) = canonStr rel ∧ dotdotStr ∉ rel :=
  (relative_reference_canonical_no_dotdot "docs/a.txt" ["r"] ["r"] (by decide)).1
    "docs/a.txt" (by decide)

/-! ### Splitting and joining roundtrip -/

theorem splitOnChar_no_sep_mem {sep : Char} {l piece : List Char}
    (h : piece ∈ splitOnChar sep l) : sep ∉ piece := by
  induction l generalizing piece with
  | nil =>
    simp only [splitOnChar, List.mem_singleton] at h
    simp [h]
  | cons c t ih =>
    simp only [splitOnChar] at h
    split at h
    · rcases List.mem_cons.mp h with rfl | h'
      · simp
      · exact ih h'
    · rename_i hc
      rcases hsplit : splitOnChar sep t with _ | ⟨hd, tl⟩
      · rw [hsplit] at h
        simp only [List.mem_singleton] at h
        subst h
        intro hm
        rcases List.mem_singleton.mp hm with rfl
        simp at hc
      · rw [hsplit] at h
        rcases List.mem_cons.mp h with rfl | h'
        · intro hm
          rcases List.mem_cons.mp hm with rfl | hm'
          · simp at hc
          · exact ih (hsplit ▸ List.mem_cons_self hd tl) hm'
        · exact ih (hsplit ▸ List.mem_cons_of_mem hd h')

theorem splitOnChar_no_sep_single {sep : Char} {l : List Char} (h : sep ∉ l) :
    splitOnChar sep l = [l] := by
  induction l with
  | nil => rfl
  | cons c t ih =>
    have hc : ¬(c == sep) = true := by
      simp only [beq_iff_eq]
      intro hcc
      exact h (hcc ▸ List.mem_cons_self c t)
    have ht : sep ∉ t := fun hm => h (List.mem_cons_of_mem c hm)
    simp [splitOnChar, hc, ih ht]

theorem splitOnChar_append_sep {sep : Char} {piece : List Char} (l : List Char)
    (h : sep ∉ piece) :
    splitOnChar sep (piece ++ sep :: l) = piece :: splitOnChar sep l := by
  induction piece with
  | nil => simp [splitOnChar]
  | cons c p ih =>
    have hc : ¬(c == sep) = true := by
      simp only [beq_iff_eq]
      intro hcc
      exact h (hcc ▸ List.mem_cons_self c p)
    have hp : sep ∉ p := fun hm => h (List.mem_cons_of_mem c hm)
    simp [splitOnChar, hc, ih hp]

theorem split_join {segs : List String} (hne : segs ≠ [])
    (h : ∀ s ∈ segs, slashChar ∉ s.data) :
    splitOnChar slashChar (joinSegsChars segs) = segs.map String.data := by
  induction segs with
  | nil => cases hne rfl
  | cons s rest ih =>
    cases rest with
    | nil =>
      simp only [joinSegsChars, List.map]
      exact splitOnChar_no_sep_single (h s (List.mem_cons_self s []))
    | cons s2 r2 =>
      have hjoin : joinSegsChars (s :: s2 :: r2) =
          s.data ++ slashChar :: joinSegsChars (s2 :: r2) := rfl
      rw [hjoin, splitOnChar_append_sep _ (h s (List.mem_cons_self s (s2 :: r2))),
        ih (by simp) (fun x hx => h x (List.mem_cons_of_mem s hx))]
      rfl

theorem parseRel_canonStr {segs : List String}
    (h : ∀ s ∈ segs, s ≠ emptyStr ∧ s ≠ dotStr ∧ slashChar ∉ s.data) :
    parseRel (canonStr segs) = segs := by
  cases hsegs : segs with
  | nil => decide
  | cons s rest =>
    subst hsegs
    have hjoin : (canonStr (s :: rest)).data = joinSegsChars (s :: rest) := by
      simp [canonStr, String.mk]
    unfold parseRel
    rw [hjoin, split_join (by simp) (fun x hx => (h x hx).2.2)]
    have hmap : ((s :: rest).map String.data).map String.mk = s :: rest := by
      rw [List.map_map]
      exact List.map_id'' (fun x => rfl) (s :: rest)
    rw [hmap]
    refine List.filter_eq_self.mpr ?_
    intro x hx
    have hprops := h x hx
    simp [Bool.and_eq_true, Bool.not_eq_true', beq_eq_false_iff_ne, hprops.1, hprops.2.1]

theorem resolveSegs_eq_self_aux (l acc : List String) (h : dotdotStr ∉ l) :
    l.foldl (fun acc seg => if seg == dotdotStr then acc.dropLast else acc ++ [seg]) acc =
      acc ++ l := by
  induction l generalizing acc with
  | nil => simp
  | cons x t ih =>
    have hx : ¬(x == dotdotStr) = true := by
      simp only [beq_iff_eq]
      intro hxx
      exact h (hxx ▸ List.mem_cons_self x t)
    have ht : dotdotStr ∉ t := fun hm => h (List.mem_cons_of_mem x hm)
    simp only [List.foldl_cons, if_neg hx]
    rw [ih _ ht]
    simp

/-- `Path.resolve()` is the identity on a path with no `..` segment. -/
theorem resolveSegs_eq_self {l : List String} (h : dotdotStr ∉ l) : resolveSegs l = l :=
  resolveSegs_eq_self_aux l [] h

theorem parseRel_mem_props {s x : String} (h : x ∈ parseRel s) :
    x ≠ emptyStr ∧ x ≠ dotStr ∧ slashChar ∉ x.data := by
  unfold parseRel at h
  rw [List.mem_filter] at h
  obtain ⟨hmem, hcond⟩ := h
  simp only [Bool.and_eq_true, Bool.not_eq_true', beq_eq_false_iff_ne] at hcond
  refine ⟨hcond.1, hcond.2, ?_⟩
  rw [List.mem_map] at hmem
  obtain ⟨piece, hpiece, rfl⟩ := hmem
  exact splitOnChar_no_sep_mem hpiece

theorem startsSlash_canonStr {segs : List String}
    (h : ∀ s ∈ segs, s ≠ emptyStr ∧ slashChar ∉ s.data) :
    startsSlash (canonStr segs) = false := by
  cases segs with
  | nil => decide
  | cons s rest =>
    have hs := h s (List.mem_cons_self s rest)
    have hdata : (canonStr (s :: rest)).data = joinSegsChars (s :: rest) := by
      simp [canonStr, String.mk]
    rcases hd : s.data with _ | ⟨c, cs⟩
    · exact absurd (show s = emptyStr from congrArg String.mk hd) hs.1
    · have hc : c ≠ slashChar := by
        intro hcc
        exact hs.2 (hd ▸ hcc ▸ List.mem_cons_self c cs)
      unfold startsSlash
      rw [hdata]
      cases rest with
      | nil =>
        simp only [joinSegsChars, hd]
        simp [hc]
      | cons s2 r2 =>
        have : joinSegsChars (s :: s2 :: r2) = s.data ++ slashChar :: joinSegsChars (s2 :: r2) :=
          rfl
        rw [this, hd]
        simp [hc]

/-- C5 amended: when the source file's directory is the project root
itself (segments of the root being ordinary names), resolving a relative
reference and then resolving its canonical output again through the same
resolver yields the identical canonical path. -/
theorem resolver_idempotent_at_project_root :
    ∀ (projDir : List String) (ref c : String),
      (∀ s ∈ projDir, s ≠ emptyStr ∧ s ≠ dotStr ∧ s ≠ dotdotStr ∧ slashChar ∉ s.data) →
      startsSlash ref = false →
      resolveReference ref projDir projDir = some c →
      resolveReference c projDir projDir = some c := by
  intro projDir ref c hclean hs h
  have habs : resolveAbs ref projDir projDir = resolveSegs (projDir ++ parseRel ref) := by
    simp [resolveAbs, hs]
  unfold resolveReference at h
  rw [habs] at h
  rcases hrel : relativeTo? (resolveSegs (projDir ++ parseRel ref)) projDir with _ | rel
  · rw [hrel] at h
    cases h
  · rw [hrel] at h
    cases h
    obtain ⟨_, hdrop⟩ := relativeTo?_some_imp hrel
    have hsub : ∀ x ∈ rel, x ∈ projDir ++ parseRel ref := by
      intro x hx
      exact resolveSegs_subset _ x (List.drop_subset _ _ (hdrop ▸ hx))
    have hprops : ∀ x ∈ rel, x ≠ emptyStr ∧ x ≠ dotStr ∧ slashChar ∉ x.data := by
      intro x hx
      rcases List.mem_append.mp (hsub x hx) with hm | hm
      · exact ⟨(hclean x hm).1, (hclean x hm).2.1, (hclean x hm).2.2.2⟩
      · exact parseRel_mem_props hm
    have hnd : dotdotStr ∉ rel := fun hx =>
      not_dotdot_mem_resolveSegs _ (List.drop_subset _ _ (hdrop ▸ hx))
    have hs2 : startsSlash (canonStr rel) = false :=
      startsSlash_canonStr (fun x hx => ⟨(hprops x hx).1, (hprops x hx).2.2⟩)
    unfold resolveReference
    have habs2 : resolveAbs (canonStr rel) projDir projDir =
        resolveSegs (projDir ++ parseRel (canonStr rel)) := by
      simp [resolveAbs, hs2]
    rw [habs2, parseRel_canonStr hprops]
    have hself : resolveSegs (projDir ++ rel) = projDir ++ rel := by
      refine resolveSegs_eq_self ?_
      intro hmm
      rcases List.mem_append.mp hmm with hm | hm
      · exact (hclean dotdotStr hm).2.2.1 rfl
      · exact hnd hm
    rw [hself, relativeTo?_eq_some_of_leading (List.prefix_append projDir rel),
      List.drop_left]

/-- Witness for C5 (amended): `assets/x` resolved from the project root
resolves to `assets/x`, and re-resolving that canonical output is the
identity. -/
theorem resolver_idempotent_at_project_root_witness :
    resolveReference "assets/x" ["r"] ["r"] = some "assets/x" ∧
    resolveReference (String.mk ['a', 's', 's', 'e', 't', 's', '/', 'x']) ["r"] ["r"] =
      some (String.mk ['a', 's', 's', 'e', 't', 's', '/', 'x']) := by
  refine ⟨by decide, ?_⟩
  exact resolver_idempotent_at_project_root ["r"]
    (String.mk ['a', 's', 's', 'e', 't', 's', '/', 'x'])
    (String.mk ['a', 's', 's', 'e', 't', 's', '/', 'x'])
    (by decide) (by decide) (by decide)

/-! ### Lemmas for the extractor -/

/-- C6 amended: every markdown/image link target the extractor keeps has
its `#fragment`/`?query` suffix stripped (the kept reference contains
neither character), is non-empty, and does not start with `http://`,
`https://`, `mailto:` or `#`; every kept HTML `img` target does not start
with `http://`, `https://` or `data:` (the `mailto:`/`#` exclusions do
not apply to `img` — see the counterexample). -/
theorem extractor_target_exclusions :
    ∀ (content refL refI : String),
      refL ∈ linkRefs content →
      refI ∈ imgRefs content →
      (refL ≠ emptyStr ∧ (∀ ch ∈ refL.data, ch ≠ '#' ∧ ch ≠ '?') ∧
        pyStartsWith refL httpPre = false ∧ pyStartsWith refL httpsPre = false ∧
        pyStartsWith refL mailtoPre = false ∧ pyStartsWith refL hashPre = false) ∧
      (pyStartsWith refI httpPre = false ∧ pyStartsWith refI httpsPre = false ∧
        pyStartsWith refI dataPre = false) := by
  intro content refL refI hL hI
  constructor
  · unfold linkRefs at hL
    rw [List.mem_filterMap] at hL
    obtain ⟨raw, _, hproc⟩ := hL
    simp only [processLinkTarget] at hproc
    split at hproc
    · cases hproc
    · split at hproc
      · cases hproc
      · rename_i hne hsch
        cases hproc
        rw [Bool.not_eq_true] at hne
        have hchars : ∀ ch ∈ (stripFragQuery raw).data, ch ≠ '#' ∧ ch ≠ '?' := by
          intro ch hch
          simp only [stripFragQuery] at hch
          constructor
          · have hch2 : ch ∈ raw.data.takeWhile (fun c => c != '#') :=
              (List.takeWhile_prefix _).subset hch
            have := List.mem_takeWhile_imp hch2
            simpa using this
          · have := List.mem_takeWhile_imp hch
            simpa using this
        refine ⟨by simpa using hne, hchars, ?_, ?_, ?_, ?_⟩
        · rcases hhttp : pyStartsWith (stripFragQuery raw) httpPre with _ | _
          · rfl
          · exact absurd (by simp [hhttp]) hsch
        · rcases hhttp : pyStartsWith (stripFragQuery raw) httpsPre with _ | _
          · rfl
          · exact absurd (by simp [hhttp]) hsch
        · rcases hhttp : pyStartsWith (stripFragQuery raw) mailtoPre with _ | _
          · rfl
          · exact absurd (by simp [hhttp]) hsch
        · rcases hhttp : pyStartsWith (stripFragQuery raw) hashPre with _ | _
          · rfl
          · exact absurd (by simp [hhttp]) hsch
  · unfold imgRefs at hI
    rw [List.mem_filter] at hI
    obtain ⟨_, hcond⟩ := hI
    simp only [Bool.and_eq_true, Bool.not_eq_true'] at hcond
    exact ⟨hcond.1.1.2, hcond.1.2, hcond.2⟩

/-- Witness for C6 (amended): a document with one markdown link
(fragment stripped) and one `img` tag. -/
theorem extractor_target_exclusions_witness :
    ("x/y" : String) ≠ emptyStr ∧
    (∀ ch ∈ ("x/y" : String).data, ch ≠ '#' ∧ ch ≠ '?') ∧
    pyStartsWith "x/y" httpPre = false ∧ pyStartsWith "x/y" httpsPre = false ∧
    pyStartsWith "x/y" mailtoPre = false ∧ pyStartsWith "x/y" hashPre = false ∧
    pyStartsWith "m/n" httpPre = false ∧ pyStartsWith "m/n" httpsPre = false ∧
    pyStartsWith "m/n" dataPre = false := by
  have h := extractor_target_exclusions "[a](x/y#f)\n<img src='m/n'>" "x/y" "m/n"
    (by decide) (by decide)
  exact ⟨h.1.1, h.1.2.1, h.1.2.2.1, h.1.2.2.2.1, h.1.2.2.2.2.1, h.1.2.2.2.2.2,
    h.2.1, h.2.2.1, h.2.2.2⟩

/-! ### The content budget boundary -/

/-- C8: the budget checker computes the line count as newline count plus
one; content with 501 lines (500 newlines) against a line ceiling of 500
yields exactly one `too-many-lines` finding, which is an ERROR and is
counted in the error total; content with 500 lines (499 newlines) yields
none. -/
theorem line_budget_boundary :
    ∀ (tokenCount : String → Nat) (c501 c500 : String) (file : List String)
      (ln maxTokens : Nat) (projDir : List String) (out1 out2 : List Finding × Nat × Nat),
      countNewlines c501 = 500 → countNewlines c500 = 499 →
      validate_content_length tokenCount c501 file ln maxTokens 500 projDir = some out1 →
      validate_content_length tokenCount c500 file ln maxTokens 500 projDir = some out2 →
      countRule ruleTooManyLines out1.1 = 1 ∧ out1.2.2 = 1 ∧
        (∀ fd ∈ out1.1, fd.rule = ruleTooManyLines → fd.level = LogLevel.error) ∧
        countRule ruleTooManyLines out2.1 = 0 ∧ out2.2.2 = 0 := by
  intro tokenCount c501 c500 file ln maxTokens projDir out1 out2 h501 h499 hv1 hv2
  have e1 : (ruleComplexity == ruleTooManyLines) = false := by decide
  have e2 : (ruleTooComplex == ruleTooManyLines) = false := by decide
  have e3 : (ruleTooManyLines == ruleTooManyLines) = true := by decide
  simp only [validate_content_length] at hv1 hv2
  rcases hrel : relativeTo? file projDir with _ | fileRel
  · rw [hrel] at hv1
    cases hv1
  · rw [hrel] at hv1 hv2
    rw [h501] at hv1
    rw [h499] at hv2
    norm_num at hv1 hv2
    cases hv1
    cases hv2
    refine ⟨?_, ?_, ?_, ?_, ?_⟩
    · split
      · simp [countRule, List.countP_cons, e2, e3]
      · simp [countRule, List.countP_cons, e1, e3]
    · split <;> rfl
    · intro fd hfd hrule
      split at hfd
      · rcases List.mem_cons.mp hfd with rfl | hfd'
        · exact absurd hrule (show ¬ruleTooComplex = ruleTooManyLines by decide)
        · rcases List.mem_singleton.mp hfd' with rfl
          rfl
      · rcases List.mem_cons.mp hfd with rfl | hfd'
        · exact absurd hrule (show ¬ruleComplexity = ruleTooManyLines by decide)
        · rcases List.mem_singleton.mp hfd' with rfl
          rfl
    · split
      · simp [countRule, List.countP_cons, e2]
      · simp [countRule, List.countP_cons, e1]
    · split <;> rfl

/-- Witness for C8: 500 and 499 newline characters against ceiling 500. -/
theorem line_budget_boundary_witness :
    countRule ruleTooManyLines
        [⟨LogLevel.info, ruleComplexity, ["f"], some 1⟩,
         ⟨LogLevel.error, ruleTooManyLines, ["f"], some 1⟩] = 1 ∧
      (([⟨LogLevel.info, ruleComplexity, ["f"], some 1⟩,
         ⟨LogLevel.error, ruleTooManyLines, ["f"], some 1⟩] : List Finding), 0, 1).2.2 = 1 ∧
      (∀ fd ∈ ([⟨LogLevel.info, ruleComplexity, ["f"], some 1⟩,
          ⟨LogLevel.error, ruleTooManyLines, ["f"], some 1⟩] : List Finding),
        fd.rule = ruleTooManyLines → fd.level = LogLevel.error) ∧
      countRule ruleTooManyLines [⟨LogLevel.info, ruleComplexity, ["f"], some 1⟩] = 0 ∧
      (([⟨LogLevel.info, ruleComplexity, ["f"], some 1⟩] : List Finding),
        (0 : Nat), (0 : Nat)).2.2 = 0 :=
  line_budget_boundary (fun _ => 0) (String.mk (List.replicate 500 '\n'))
    (String.mk (List.replicate 499 '\n')) ["r", "f"] 1 100 ["r"]
    ([⟨LogLevel.info, ruleComplexity, ["f"], some 1⟩,
      ⟨LogLevel.error, ruleTooManyLines, ["f"], some 1⟩], 0, 1)
    ([⟨LogLevel.info, ruleComplexity, ["f"], some 1⟩], 0, 0)
    (by decide) (by decide) (by decide) (by decide)

/-! ### The snippet budget -/

/-- A fenced code block of six non-empty lines. -/
def fenceDoc : String := "```\na\nb\nc\nd\ne\nf\n```"

/-- The body the block pattern captures from `fenceDoc`. -/
def fenceBody : List Char := "a\nb\nc\nd\ne\nf\n".data

theorem startsTicks_false_of_ne {c : Char} (t : List Char) (h : c ≠ btChar) :
    startsTicks (c :: t) = false := by
  have hc : (c == btChar) = false := beq_eq_false_iff_ne.mpr h
  cases t with
  | nil => rfl
  | cons b t2 =>
    cases t2 with
    | nil => rfl
    | cons d t3 => simp [startsTicks, hc]

theorem tryCodeBlock_none_of_ne {c : Char} (t : List Char) (h : c ≠ btChar) :
    tryCodeBlock (c :: t) = none := by
  unfold tryCodeBlock
  rw [startsTicks_false_of_ne t h]
  simp

theorem scanBlocksF_clean :
    ∀ (fuel : Nat) (s : List Char) (i : Nat), (∀ ch ∈ s, ch ≠ btChar) →
      scanBlocksF fuel i s = [] := by
  intro fuel
  induction fuel with
  | zero =>
    intro s i _
    rfl
  | succ fuel ih =>
    intro s i h
    cases s with
    | nil => rfl
    | cons c t =>
      simp only [scanBlocksF]
      rw [tryCodeBlock_none_of_ne t (h c (List.mem_cons_self c t))]
      exact ih t (i + 1) (fun ch hch => h ch (List.mem_cons_of_mem c hch))

theorem scanBlocksF_step {s g : List Char} {n : Nat} (fuel i : Nat)
    (h : tryCodeBlock s = some (g, n)) (hs : s ≠ []) :
    scanBlocksF (fuel + 1) i s = (i, g) :: scanBlocksF fuel (i + n) (s.drop n) := by
  cases s with
  | nil => cases hs rfl
  | cons c t =>
    simp only [scanBlocksF]
    rw [h]

theorem scanBlocksF_append_clean :
    ∀ (pre : List Char) (fuel i : Nat) (s : List Char), (∀ ch ∈ pre, ch ≠ btChar) →
      scanBlocksF (pre.length + fuel) i (pre ++ s) = scanBlocksF fuel (i + pre.length) s := by
  intro pre
  induction pre with
  | nil =>
    intro fuel i s _
    simp
  | cons c p ih =>
    intro fuel i s h
    have harith : (c :: p).length + fuel = (p.length + fuel) + 1 := by
      simp only [List.length_cons]
      omega
    rw [harith]
    have hcons : (c :: p) ++ s = c :: (p ++ s) := rfl
    rw [hcons]
    simp only [scanBlocksF]
    rw [tryCodeBlock_none_of_ne _ (h c (List.mem_cons_self c p))]
    rw [ih fuel (i + 1) s (fun ch hch => h ch (List.mem_cons_of_mem c hch))]
    have harith2 : i + 1 + p.length = i + (c :: p).length := by
      simp only [List.length_cons]
      omega
    rw [harith2]

theorem tryCodeBlock_fenceDoc (post : List Char) :
    tryCodeBlock (fenceDoc.data ++ post) = some (fenceBody, 19) := rfl

theorem fenceDoc_append_ne (post : List Char) : fenceDoc.data ++ post ≠ [] := by
  intro h
  have hlen := congrArg List.length h
  rw [List.length_append] at hlen
  have h19 : fenceDoc.data.length = 19 := rfl
  rw [h19] at hlen
  simp at hlen

/-- C9: for content consisting of a backtick-free prefix, one fenced
block of six non-empty lines, and a backtick-free suffix, validation with
a snippet ceiling of three lines emits exactly one WARNING
`code-snippet-too-large` finding; its reported line number is the number
of newlines before the opening fence plus one — the line of the opening
fence. -/
theorem snippet_budget_finding :
    ∀ (pre post : String) (fp : List String),
      (∀ ch ∈ pre.data, ch ≠ btChar) →
      (∀ ch ∈ post.data, ch ≠ btChar) →
      validate_code_snippets fp (pre ++ fenceDoc ++ post) 3 =
        [⟨LogLevel.warning, ruleSnippet, fp, some (countNewlines pre + 1)⟩] := by
  intro pre post fp hpre hpost
  unfold validate_code_snippets scanBlocks
  have hdata : (pre ++ fenceDoc ++ post).data =
      pre.data ++ (fenceDoc.data ++ post.data) := by
    rw [String.data_append, String.data_append, List.append_assoc]
  rw [hdata, List.length_append]
  rw [scanBlocksF_append_clean pre.data _ 0 _ hpre]
  rw [Nat.zero_add]
  have hsucc : (fenceDoc.data ++ post.data).length = (18 + post.data.length) + 1 := by
    rw [List.length_append]
    have h19 : fenceDoc.data.length = 19 := rfl
    omega
  rw [hsucc]
  rw [scanBlocksF_step _ _ (tryCodeBlock_fenceDoc post.data) (fenceDoc_append_ne post.data)]
  have hdrop : (fenceDoc.data ++ post.data).drop 19 = post.data := by
    have h19 : (19 : Nat) = fenceDoc.data.length := rfl
    rw [h19, List.drop_left]
  rw [hdrop]
  rw [scanBlocksF_clean _ _ _ hpost]
  simp only [List.filterMap_cons, List.filterMap_nil]
  have hcount : ((splitOnNl fenceBody).countP strippedNonEmpty) = 6 := by decide
  rw [hcount]
  norm_num
  rfl

/-- Witness for C9: prefix `intro` plus a newline, suffix a newline and
`tail`; the fence opens on line 2. -/
theorem snippet_budget_finding_witness :
    validate_code_snippets ["f.md"] ("intro\n" ++ fenceDoc ++ "\ntail") 3 =
      [⟨LogLevel.warning, ruleSnippet, ["f.md"], some (countNewlines "intro\n" + 1)⟩] :=
  snippet_budget_finding "intro\n" "\ntail" ["f.md"] (by decide) (by decide)

/-! ### Lemmas for the consistency checker -/

theorem eq_of_drop_eq {base a b : List String} (ha : base <+: a) (hb : base <+: b)
    (h : a.drop base.length = b.drop base.length) : a = b := by
  obtain ⟨ta, rfl⟩ := ha
  obtain ⟨tb, rfl⟩ := hb
  rw [List.drop_left, List.drop_left] at h
  rw [h]

/-- Any finding the scan-loop body emits for a file carries that file's
path relative to the reporting base, and the base is a prefix of the
file's path. -/
theorem mem_checkFile {projDir relTo ignoreNames refs : List String} {level : LogLevel}
    {startLine : Nat} {filePath : List String} {fd : Finding}
    (h : fd ∈ checkFile projDir relTo ignoreNames refs level startLine filePath) :
    fd = ⟨level, ruleUnreferenced, filePath.drop relTo.length, some startLine⟩ ∧
      relTo <+: filePath := by
  unfold checkFile at h
  split at h
  · simp at h
  · split at h
    · rename_i relRel projRel h1 h2
      have hpre : relTo <+: filePath := by
        simp only [relativeTo?] at h1
        split at h1
        · rename_i hp
          exact List.isPrefixOf_iff_prefix.mp hp
        · cases h1
      have hrel : relRel = filePath.drop relTo.length := by
        rw [relativeTo?_eq_some_of_leading hpre] at h1
        cases h1
        rfl
      split at h
      · simp at h
      · split at h
        · subst hrel
          simp at h
          exact ⟨h, hpre⟩
        · simp at h
    · simp at h

/-- The scan-loop body on a non-ignored file below the project root, with
a reporting base above the project root: an unmatched file yields exactly
the one `unreferenced-resource-file` finding, a matched file nothing. -/
theorem checkFile_self {projDir relTo ignoreNames refs : List String} {level : LogLevel}
    {startLine : Nat} {f : List String}
    (h1 : relTo <+: projDir) (h2 : projDir <+: f)
    (hig : isIgnoredPath ignoreNames f = false) :
    checkFile projDir relTo ignoreNames refs level startLine f =
      if refMatches refs (canonStr (f.drop projDir.length)) then []
      else [⟨level, ruleUnreferenced, f.drop relTo.length, some startLine⟩] := by
  unfold checkFile
  rw [relativeTo?_eq_some_of_leading (h1.trans h2), relativeTo?_eq_some_of_leading h2,
    relativeTo?_eq_some_of_leading h1]
  simp [hig]

/-- C1: for a duplicate-free scan list, a scanned file below the project
root (reporting base above the project root, file not ignored) receives
exactly one `unreferenced-resource-file` finding when its project-relative
path matches no reference exactly or as a string suffix, and none when it
matches. -/
theorem unreferenced_finding_iff_unmatched :
    ∀ (scanned : List (List String)) (projDir relTo ignoreNames refs : List String)
      (level : LogLevel) (startLine : Nat) (f : List String),
      scanned.Nodup → f ∈ scanned →
      relTo <+: projDir → projDir <+: f →
      isIgnoredPath ignoreNames f = false →
      (validateScanned projDir relTo ignoreNames refs level startLine scanned).countP
          (fun fd => fd.rule == ruleUnreferenced && fd.file == f.drop relTo.length) =
        (if refMatches refs (canonStr (f.drop projDir.length)) then 0 else 1) := by
  intro scanned projDir relTo ignoreNames refs level startLine f hnd hf h1 h2 hig
  induction scanned with
  | nil => simp at hf
  | cons g rest ih =>
    rw [List.nodup_cons] at hnd
    have hsplit :
        validateScanned projDir relTo ignoreNames refs level startLine (g :: rest) =
          checkFile projDir relTo ignoreNames refs level startLine g ++
            validateScanned projDir relTo ignoreNames refs level startLine rest := rfl
    rw [hsplit, List.countP_append]
    rcases List.mem_cons.mp hf with rfl | hf'
    · have hrest :
          (validateScanned projDir relTo ignoreNames refs level startLine rest).countP
            (fun fd => fd.rule == ruleUnreferenced && fd.file == f.drop relTo.length) = 0 := by
        rw [List.countP_eq_zero]
        intro fd hfd
        rw [validateScanned, List.mem_flatMap] at hfd
        obtain ⟨g', hg', hfd⟩ := hfd
        obtain ⟨rfl, hpre⟩ := mem_checkFile hfd
        simp only [Bool.and_eq_true, beq_iff_eq, not_and]
        intro _ hfile
        exact absurd (eq_of_drop_eq hpre (h1.trans h2) hfile ▸ hg') hnd.1
      rw [hrest, checkFile_self h1 h2 hig]
      split
      · simp
      · simp
    · have hg :
          (checkFile projDir relTo ignoreNames refs level startLine g).countP
            (fun fd => fd.rule == ruleUnreferenced && fd.file == f.drop relTo.length) = 0 := by
        rw [List.countP_eq_zero]
        intro fd hfd
        obtain ⟨rfl, hpre⟩ := mem_checkFile hfd
        simp only [Bool.and_eq_true, beq_iff_eq, not_and]
        intro _ hfile
        exact absurd (eq_of_drop_eq hpre (h1.trans h2) hfile) (fun hgf => hnd.1 (hgf ▸ hf'))
      rw [hg, ih hnd.2 hf']
      omega

/-- Witness for C1: one unmatched resource file, empty reference set —
exactly one finding; the same file with a matching reference — none. -/
theorem unreferenced_finding_iff_unmatched_witness :
    (validateScanned ["r"] ["r"] [] [] LogLevel.error 0
        [["r", "assets", "a.png"]]).countP
      (fun fd => fd.rule == ruleUnreferenced &&
        fd.file == (["r", "assets", "a.png"] : List String).drop
          (["r"] : List String).length) = 1 := by
  have h := unreferenced_finding_iff_unmatched [["r", "assets", "a.png"]] ["r"] ["r"] [] []
    LogLevel.error 0 ["r", "assets", "a.png"] (by decide) (by decide)
    ⟨[], rfl⟩ ⟨["assets", "a.png"], rfl⟩ (by decide)
  simpa using h

/-- C10: suffix matching in the consistency checker does not require a
path-segment boundary: the reference `myassets/logo.png` ends with the
string `assets/logo.png`, so the resource file `assets/logo.png` is
treated as referenced (no `unreferenced-resource-file` finding) although
the reference names a different path. -/
theorem suffix_match_ignores_segment_boundary :
    refMatches ["myassets/logo.png"] "assets/logo.png" = true ∧
    ("myassets/logo.png" : String) ≠ "assets/logo.png" ∧
    validateScanned ["r"] ["r"] [] ["myassets/logo.png"] LogLevel.error 0
        [["r", "assets", "logo.png"]] = [] := by
  refine ⟨by decide, by decide, by decide⟩

end AiLinter
